import Mathlib

/-!
Shallow embedding of the mention-management and group-channel
message-collection logic of the sendbird-uikit-react-native repository.

Texts are modelled as `List Char`; JavaScript numbers used as text offsets
are modelled as `Int` (ranges may be shifted by negative offsets).
-/

namespace SendbirdUIKit

/-- A `{start, end}` offset range into a text buffer (source: `Range`). -/
structure Range where
  start : Int
  «end» : Int
deriving DecidableEq

/-- A chat user (source: `SendbirdUser`, restricted to the fields used). -/
structure User where
  userId : List Char
  nickname : List Char
deriving DecidableEq

/-- A (user, range) mention pair (source: `MentionedUser`). -/
structure MentionedUser where
  user : User
  range : Range
deriving DecidableEq

/-- Mention configuration: the trigger (e.g. `@`) and delimiter (e.g. space)
strings (source: `MentionConfigInterface`, restricted to the fields used). -/
structure MentionConfig where
  trigger : List Char
  delimiter : List Char
deriving DecidableEq

/-- Source: `MentionManager.rangeHelpers.inRangeUnderOver`. -/
def inRangeUnderOver (start num «end» : Int) : Bool :=
  decide (start < num) && decide (num < «end»)

/-- Source: `MentionManager.rangeHelpers.inRangeUnderMore`. -/
def inRangeUnderMore (start num «end» : Int) : Bool :=
  decide (start < num) && decide (num ≤ «end»)

/-- Source: `MentionManager.rangeHelpers.inRangeLessOver`. -/
def inRangeLessOver (start num «end» : Int) : Bool :=
  decide (start ≤ num) && decide (num < «end»)

/-- Source: `MentionManager.rangeHelpers.inRangeLessMore`. -/
def inRangeLessMore (start num «end» : Int) : Bool :=
  decide (start ≤ num) && decide (num ≤ «end»)

/-- The four boundary-inclusivity modes of `rangeHelpers.intersection`. -/
inductive CompareMode
  | underOver
  | underMore
  | lessOver
  | lessMore
deriving DecidableEq

/-- Source: `MentionManager.rangeHelpers.intersection`: picks the mode's
containment test and applies it to `b.start` and `b.end` against `a`. -/
def intersection (a b : Range) (compare : CompareMode) : Bool :=
  let range :=
    match compare with
    | CompareMode.underOver => inRangeUnderOver
    | CompareMode.underMore => inRangeUnderMore
    | CompareMode.lessOver => inRangeLessOver
    | CompareMode.lessMore => inRangeLessMore
  range a.start b.start a.«end» || range a.start b.«end» a.«end»

/-- The spec's "mode-contains" predicate, written from the spec's words:
the four inclusivity modes `(start,end)`, `(start,end]`, `[start,end)`,
`[start,end]` expressed as under/over combinations.  Used to compare the
source's `intersection` against the spec. -/
def specModeContains (mode : CompareMode) (r : Range) (num : Int) : Prop :=
  match mode with
  | CompareMode.underOver => r.start < num ∧ num < r.«end»
  | CompareMode.underMore => r.start < num ∧ num ≤ r.«end»
  | CompareMode.lessOver => r.start ≤ num ∧ num < r.«end»
  | CompareMode.lessMore => r.start ≤ num ∧ num ≤ r.«end»

/-- Claim C8: for every pair of ranges and each of the four inclusivity
modes, `intersection a b mode` is true iff `a` mode-contains `b.start` or
`a` mode-contains `b.end`; the predicate is a pure function of its
arguments (it is a plain `def` with no state). -/
theorem intersection_iff_modeContains (a b : Range) (mode : CompareMode) :
    intersection a b mode = true ↔
      specModeContains mode a b.start ∨ specModeContains mode a b.«end» := by
  cases mode <;>
    simp [intersection, specModeContains, inRangeUnderOver, inRangeUnderMore,
      inRangeLessOver, inRangeLessMore]

/-- Result record of `removeMentionedUsersInSelection`. -/
structure RemoveResult where
  filtered : List MentionedUser
  lastSelection : Int
  removedOffset : Int
deriving DecidableEq

/-- Source: `MentionManager.removeMentionedUsersInSelection`: one pass over
the mention list; a mention is dropped when
`intersection(selection, it.range, 'lessMore')` holds, accumulating
`lastSelection = Math.max(lastSelection, it.range.end)` (starting at 0) and
`removedOffset -= it.range.end - it.range.start` (starting at 0). -/
def removeMentionedUsersInSelection (selection : Range)
    (mentionedUsers : List MentionedUser) : RemoveResult :=
  mentionedUsers.foldl
    (fun acc it =>
      if intersection selection it.range CompareMode.lessMore then
        { acc with
          lastSelection := max acc.lastSelection it.range.«end»,
          removedOffset := acc.removedOffset - (it.range.«end» - it.range.start) }
      else { acc with filtered := acc.filtered ++ [it] })
    ⟨[], 0, 0⟩

/-- Source: `MentionManager.reconcileRangeInMentionedUsers`: shifts the
range of every mention whose start is at or after the selection index. -/
def reconcileRangeInMentionedUsers (offset selectionIndex : Int)
    (mentionedUsers : List MentionedUser) : List MentionedUser :=
  mentionedUsers.map fun it =>
    if selectionIndex ≤ it.range.start then
      { it with range := { start := it.range.start + offset, «end» := it.range.«end» + offset } }
    else it

/-- The removal predicate applied by `removeMentionedUsersInSelection`. -/
def shouldRemove (selection : Range) (it : MentionedUser) : Bool :=
  intersection selection it.range CompareMode.lessMore

theorem removeGo_filtered (selection : Range) (ms : List MentionedUser) :
    ∀ acc : RemoveResult,
      (ms.foldl
        (fun acc it =>
          if intersection selection it.range CompareMode.lessMore then
            { acc with
              lastSelection := max acc.lastSelection it.range.«end»,
              removedOffset := acc.removedOffset - (it.range.«end» - it.range.start) }
          else { acc with filtered := acc.filtered ++ [it] })
        acc).filtered = acc.filtered ++ ms.filter (fun it => !shouldRemove selection it) := by
  induction ms with
  | nil => intro acc; simp
  | cons hd tl ih =>
    intro acc
    by_cases h : intersection selection hd.range CompareMode.lessMore = true
    · simp [List.foldl_cons, h, ih, shouldRemove]
    · simp only [Bool.not_eq_true] at h
      simp [List.foldl_cons, h, ih, shouldRemove]

theorem remove_filtered_eq (selection : Range) (ms : List MentionedUser) :
    (removeMentionedUsersInSelection selection ms).filtered =
      ms.filter (fun it => !shouldRemove selection it) := by
  have h := removeGo_filtered selection ms ⟨[], 0, 0⟩
  simpa [removeMentionedUsersInSelection] using h

/-- Claim C1, counterexample: selection `[3,5]`, one mention with range
`[0,10]` (the mention strictly contains the selection).  The claim's
closed-closed intersection condition `start ≤ b ∧ end ≥ a` holds, yet the
code keeps the mention: its filter tests only whether the mention's `start`
or `end` lies inside the selection. -/
theorem remove_strictly_containing_mention_kept :
    ((0 : Int) ≤ 5 ∧ (3 : Int) ≤ 10) ∧
      (removeMentionedUsersInSelection ⟨3, 5⟩
        [⟨⟨['u'], ['u']⟩, ⟨0, 10⟩⟩]).filtered = [⟨⟨['u'], ['u']⟩, ⟨0, 10⟩⟩] := by
  constructor
  · exact ⟨by decide, by decide⟩
  · decide

/-- Claim C1, amended: `removeMentionedUsersInSelection` over selection
`[a,b]` removes exactly those mentions whose `start` lies in `[a,b]` or
whose `end` lies in `[a,b]` (both closed), and no others; in particular a
mention whose range strictly contains the selection is kept. -/
theorem remove_mention_mem_filtered_iff (selection : Range)
    (ms : List MentionedUser) (m : MentionedUser) :
    m ∈ (removeMentionedUsersInSelection selection ms).filtered ↔
      m ∈ ms ∧
        ¬((selection.start ≤ m.range.start ∧ m.range.start ≤ selection.«end») ∨
          (selection.start ≤ m.range.«end» ∧ m.range.«end» ≤ selection.«end»)) := by
  rw [remove_filtered_eq]
  simp only [List.mem_filter, shouldRemove, intersection, inRangeLessMore,
    Bool.not_eq_true', Bool.or_eq_false_iff, Bool.and_eq_false_iff,
    decide_eq_false_iff_not, not_le, not_or, not_and]
  constructor
  · rintro ⟨hm, h₁, h₂⟩
    exact ⟨hm, by omega⟩
  · rintro ⟨hm, h⟩
    exact ⟨hm, by omega, by omega⟩

theorem removeGo_lastSelection (selection : Range) (ms : List MentionedUser) :
    ∀ acc : RemoveResult,
      (ms.foldl
        (fun acc it =>
          if intersection selection it.range CompareMode.lessMore then
            { acc with
              lastSelection := max acc.lastSelection it.range.«end»,
              removedOffset := acc.removedOffset - (it.range.«end» - it.range.start) }
          else { acc with filtered := acc.filtered ++ [it] })
        acc).lastSelection =
        (ms.filter (shouldRemove selection)).foldl
          (fun x it => max x it.range.«end») acc.lastSelection := by
  induction ms with
  | nil => intro acc; simp
  | cons hd tl ih =>
    intro acc
    by_cases h : intersection selection hd.range CompareMode.lessMore = true
    · simp [List.foldl_cons, h, ih, shouldRemove]
    · simp only [Bool.not_eq_true] at h
      simp [List.foldl_cons, h, ih, shouldRemove]

theorem removeGo_removedOffset (selection : Range) (ms : List MentionedUser) :
    ∀ acc : RemoveResult,
      (ms.foldl
        (fun acc it =>
          if intersection selection it.range CompareMode.lessMore then
            { acc with
              lastSelection := max acc.lastSelection it.range.«end»,
              removedOffset := acc.removedOffset - (it.range.«end» - it.range.start) }
          else { acc with filtered := acc.filtered ++ [it] })
        acc).removedOffset =
        acc.removedOffset -
          ((ms.filter (shouldRemove selection)).map
            (fun it => it.range.«end» - it.range.start)).sum := by
  induction ms with
  | nil => intro acc; simp
  | cons hd tl ih =>
    intro acc
    by_cases h : intersection selection hd.range CompareMode.lessMore = true
    · simp only [List.foldl_cons, h, if_pos, ih, shouldRemove, List.filter_cons_of_pos,
        List.map_cons, List.sum_cons]
      ring
    · simp only [Bool.not_eq_true] at h
      simp [List.foldl_cons, h, ih, shouldRemove]

theorem le_foldl_max (l : List Int) : ∀ a : Int, a ≤ l.foldl max a := by
  induction l with
  | nil => intro a; simp
  | cons hd tl ih =>
    intro a
    calc a ≤ max a hd := le_max_left a hd
    _ ≤ tl.foldl max (max a hd) := ih (max a hd)

theorem mem_le_foldl_max (l : List Int) :
    ∀ a x : Int, x ∈ l → x ≤ l.foldl max a := by
  induction l with
  | nil => intro a x hx; simp at hx
  | cons hd tl ih =>
    intro a x hx
    rcases List.mem_cons.mp hx with h | h
    · subst h
      calc x ≤ max a x := le_max_right a x
      _ ≤ tl.foldl max (max a x) := le_foldl_max tl (max a x)
    · exact ih (max a hd) x h

theorem foldl_max_mem (l : List Int) :
    ∀ a : Int, l.foldl max a = a ∨ l.foldl max a ∈ l := by
  induction l with
  | nil => intro a; simp
  | cons hd tl ih =>
    intro a
    rcases ih (max a hd) with h | h
    · rcases max_cases a hd with ⟨hm, _⟩ | ⟨hm, _⟩
      · left; rw [List.foldl_cons, h, hm]
      · right; rw [List.foldl_cons, h, hm]; exact List.mem_cons_self hd tl
    · right; exact List.mem_cons_of_mem hd h

/-- Claim C10: `removeMentionedUsersInSelection` returns `removedOffset`
equal to the negated sum of the lengths of the removed mentions; when no
mention matches the removal predicate it returns the list unchanged with
`lastSelection = 0` and `removedOffset = 0`; and when at least one mention
is removed (assuming mention ends are non-negative text offsets),
`lastSelection` is the maximum `end` among the removed mentions. -/
theorem remove_offsets_spec (selection : Range) (ms : List MentionedUser)
    (h : ∀ m ∈ ms, 0 ≤ m.range.«end») :
    (removeMentionedUsersInSelection selection ms).removedOffset =
      -((ms.filter (shouldRemove selection)).map
          (fun it => it.range.«end» - it.range.start)).sum
    ∧ (ms.filter (shouldRemove selection) = [] →
        (removeMentionedUsersInSelection selection ms).filtered = ms ∧
        (removeMentionedUsersInSelection selection ms).lastSelection = 0 ∧
        (removeMentionedUsersInSelection selection ms).removedOffset = 0)
    ∧ (ms.filter (shouldRemove selection) ≠ [] →
        (removeMentionedUsersInSelection selection ms).lastSelection ∈
          (ms.filter (shouldRemove selection)).map (fun it => it.range.«end») ∧
        ∀ e ∈ (ms.filter (shouldRemove selection)).map (fun it => it.range.«end»),
          e ≤ (removeMentionedUsersInSelection selection ms).lastSelection) := by
  have hoff := removeGo_removedOffset selection ms ⟨[], 0, 0⟩
  have hlast := removeGo_lastSelection selection ms ⟨[], 0, 0⟩
  have hfilt := removeGo_filtered selection ms ⟨[], 0, 0⟩
  simp only [removeMentionedUsersInSelection] at *
  have hfold :
      (ms.filter (shouldRemove selection)).foldl (fun x it => max x it.range.«end») 0 =
        ((ms.filter (shouldRemove selection)).map (fun it => it.range.«end»)).foldl max 0 := by
    rw [List.foldl_map]
  refine ⟨by rw [hoff]; ring, ?_, ?_⟩
  · intro hempty
    refine ⟨?_, ?_, ?_⟩
    · rw [hfilt]
      have : ms.filter (fun it => !shouldRemove selection it) = ms := by
        apply List.filter_eq_self.mpr
        intro a ha
        by_contra hc
        have : shouldRemove selection a = true := by
          revert hc; cases shouldRemove selection a <;> simp
        have : a ∈ ms.filter (shouldRemove selection) := List.mem_filter.mpr ⟨ha, this⟩
        rw [hempty] at this
        simp at this
      simp [this]
    · rw [hlast, hempty]; simp
    · rw [hoff, hempty]; simp
  · intro hne
    rw [hlast, hfold]
    set ends := (ms.filter (shouldRemove selection)).map (fun it => it.range.«end») with hends
    have hne' : ends ≠ [] := by
      simpa [hends] using hne
    have hnn : ∀ e ∈ ends, 0 ≤ e := by
      intro e he
      rw [hends] at he
      rcases List.mem_map.mp he with ⟨m, hm, rfl⟩
      exact h m (List.mem_filter.mp hm).1
    refine ⟨?_, fun e he => mem_le_foldl_max ends 0 e he⟩
    rcases foldl_max_mem ends 0 with h0 | hmem
    · rcases List.exists_mem_of_ne_nil ends hne' with ⟨e, he⟩
      have h1 : e ≤ ends.foldl max 0 := mem_le_foldl_max ends 0 e he
      have h2 : 0 ≤ e := hnn e he
      rw [h0] at h1 ⊢
      have : e = 0 := le_antisymm h1 h2
      rw [← this]
      exact he
    · exact hmem

/-- Claim C10, witness: a concrete run with one removed and one kept
mention (`selection = [0,5]`, ranges `[1,4]` removed and `[7,9]` kept). -/
theorem remove_offsets_spec_witness :
    (removeMentionedUsersInSelection ⟨0, 5⟩
        [⟨⟨['a'], ['a']⟩, ⟨1, 4⟩⟩, ⟨⟨['b'], ['b']⟩, ⟨7, 9⟩⟩]).removedOffset =
      -(([⟨⟨['a'], ['a']⟩, ⟨1, 4⟩⟩, ⟨⟨['b'], ['b']⟩, ⟨7, 9⟩⟩].filter
            (shouldRemove ⟨0, 5⟩)).map
          (fun it => it.range.«end» - it.range.start)).sum
    ∧ (([⟨⟨['a'], ['a']⟩, ⟨1, 4⟩⟩, ⟨⟨['b'], ['b']⟩, ⟨7, 9⟩⟩] :
          List MentionedUser).filter (shouldRemove ⟨0, 5⟩) = [] →
        (removeMentionedUsersInSelection ⟨0, 5⟩
            [⟨⟨['a'], ['a']⟩, ⟨1, 4⟩⟩, ⟨⟨['b'], ['b']⟩, ⟨7, 9⟩⟩]).filtered =
          [⟨⟨['a'], ['a']⟩, ⟨1, 4⟩⟩, ⟨⟨['b'], ['b']⟩, ⟨7, 9⟩⟩] ∧
        (removeMentionedUsersInSelection ⟨0, 5⟩
            [⟨⟨['a'], ['a']⟩, ⟨1, 4⟩⟩, ⟨⟨['b'], ['b']⟩, ⟨7, 9⟩⟩]).lastSelection = 0 ∧
        (removeMentionedUsersInSelection ⟨0, 5⟩
            [⟨⟨['a'], ['a']⟩, ⟨1, 4⟩⟩, ⟨⟨['b'], ['b']⟩, ⟨7, 9⟩⟩]).removedOffset = 0)
    ∧ (([⟨⟨['a'], ['a']⟩, ⟨1, 4⟩⟩, ⟨⟨['b'], ['b']⟩, ⟨7, 9⟩⟩] :
          List MentionedUser).filter (shouldRemove ⟨0, 5⟩) ≠ [] →
        (removeMentionedUsersInSelection ⟨0, 5⟩
            [⟨⟨['a'], ['a']⟩, ⟨1, 4⟩⟩, ⟨⟨['b'], ['b']⟩, ⟨7, 9⟩⟩]).lastSelection ∈
          (([⟨⟨['a'], ['a']⟩, ⟨1, 4⟩⟩, ⟨⟨['b'], ['b']⟩, ⟨7, 9⟩⟩] :
              List MentionedUser).filter (shouldRemove ⟨0, 5⟩)).map
            (fun it => it.range.«end») ∧
        ∀ e ∈ (([⟨⟨['a'], ['a']⟩, ⟨1, 4⟩⟩, ⟨⟨['b'], ['b']⟩, ⟨7, 9⟩⟩] :
              List MentionedUser).filter (shouldRemove ⟨0, 5⟩)).map
            (fun it => it.range.«end»),
          e ≤ (removeMentionedUsersInSelection ⟨0, 5⟩
            [⟨⟨['a'], ['a']⟩, ⟨1, 4⟩⟩, ⟨⟨['b'], ['b']⟩, ⟨7, 9⟩⟩]).lastSelection) :=
  remove_offsets_spec ⟨0, 5⟩ [⟨⟨['a'], ['a']⟩, ⟨1, 4⟩⟩, ⟨⟨['b'], ['b']⟩, ⟨7, 9⟩⟩]
    (by decide)

/-- Claim C6: `reconcileRangeInMentionedUsers` shifts both bounds of every
mention whose range start is at or after the edit position by exactly the
offset, and returns every mention whose range start is before the edit
position unchanged (elementwise, at every list position). -/
theorem reconcile_shifts_at_or_after (offset selectionIndex : Int)
    (ms : List MentionedUser) (i : Nat) (m : MentionedUser)
    (hm : ms[i]? = some m) :
    (selectionIndex ≤ m.range.start →
      (reconcileRangeInMentionedUsers offset selectionIndex ms)[i]? =
        some { m with range := { start := m.range.start + offset,
                                 «end» := m.range.«end» + offset } })
    ∧ (m.range.start < selectionIndex →
      (reconcileRangeInMentionedUsers offset selectionIndex ms)[i]? = some m) := by
  constructor
  · intro hle
    simp [reconcileRangeInMentionedUsers, List.getElem?_map, hm, if_pos hle]
  · intro hlt
    have : ¬selectionIndex ≤ m.range.start := not_le.mpr hlt
    simp [reconcileRangeInMentionedUsers, List.getElem?_map, hm, if_neg this]

/-- Claim C6, witness: offset 2 at edit position 1 over two mentions, one
starting at 1 (shifted) and one starting at 0 (untouched). -/
theorem reconcile_shifts_at_or_after_witness :
    (reconcileRangeInMentionedUsers 2 1
        [⟨⟨['a'], ['a']⟩, ⟨1, 3⟩⟩, ⟨⟨['b'], ['b']⟩, ⟨0, 1⟩⟩])[0]? =
      some ⟨⟨['a'], ['a']⟩, ⟨3, 5⟩⟩
    ∧ (reconcileRangeInMentionedUsers 2 1
        [⟨⟨['a'], ['a']⟩, ⟨1, 3⟩⟩, ⟨⟨['b'], ['b']⟩, ⟨0, 1⟩⟩])[1]? =
      some ⟨⟨['b'], ['b']⟩, ⟨0, 1⟩⟩ :=
  ⟨(reconcile_shifts_at_or_after 2 1
      [⟨⟨['a'], ['a']⟩, ⟨1, 3⟩⟩, ⟨⟨['b'], ['b']⟩, ⟨0, 1⟩⟩] 0
      ⟨⟨['a'], ['a']⟩, ⟨1, 3⟩⟩ rfl).1 (by decide),
   (reconcile_shifts_at_or_after 2 1
      [⟨⟨['a'], ['a']⟩, ⟨1, 3⟩⟩, ⟨⟨['b'], ['b']⟩, ⟨0, 1⟩⟩] 1
      ⟨⟨['b'], ['b']⟩, ⟨0, 1⟩⟩ rfl).2 (by decide)⟩

/-- Claim C9: `reconcileRangeInMentionedUsers` preserves the list's length
and order, every mention's user reference, and every mention's range width
(`end - start`); only range positions move. -/
theorem reconcile_preserves_shape (offset selectionIndex : Int)
    (ms : List MentionedUser) :
    (reconcileRangeInMentionedUsers offset selectionIndex ms).length = ms.length
    ∧ (reconcileRangeInMentionedUsers offset selectionIndex ms).map
        (fun it => it.user) = ms.map (fun it => it.user)
    ∧ (reconcileRangeInMentionedUsers offset selectionIndex ms).map
        (fun it => it.range.«end» - it.range.start) =
      ms.map (fun it => it.range.«end» - it.range.start) := by
  refine ⟨by simp [reconcileRangeInMentionedUsers], ?_, ?_⟩
  · simp only [reconcileRangeInMentionedUsers, List.map_map]
    apply List.map_congr_left
    intro it _
    by_cases h : selectionIndex ≤ it.range.start <;> simp [h]
  · simp only [reconcileRangeInMentionedUsers, List.map_map]
    apply List.map_congr_left
    intro it _
    by_cases h : selectionIndex ≤ it.range.start <;> simp [h]

/-- JavaScript `str.slice(0, n)` over a character list: a negative end
index counts from the end of the string, clamped at 0. -/
def jsSliceTo (l : List Char) (n : Int) : List Char :=
  if n < 0 then l.take ((l.length + n).toNat) else l.take n.toNat

/-- JavaScript `str.slice(n)` over a character list: a negative begin
index counts from the end of the string, clamped at 0. -/
def jsSliceFrom (l : List Char) (n : Int) : List Char :=
  if n < 0 then l.drop ((l.length + n).toNat) else l.drop n.toNat

/-- JavaScript `str.indexOf(sep)` over character lists: the first index at
which `sep` occurs as a contiguous sublist (`none` for JavaScript's -1). -/
def findSub (sep : List Char) : List Char → Option Nat
  | [] => if sep.isPrefixOf ([] : List Char) then some 0 else none
  | c :: rest =>
    if sep.isPrefixOf (c :: rest) then some 0
    else (findSub sep rest).map (fun j => j + 1)

theorem findSub_some (sep : List Char) :
    ∀ (l : List Char) (i : Nat), findSub sep l = some i →
      sep.isPrefixOf (l.drop i) = true := by
  intro l
  induction l with
  | nil =>
    intro i h
    by_cases hp : sep.isPrefixOf ([] : List Char) = true
    · simp only [findSub, hp, if_pos] at h
      cases h
      simpa using hp
    · simp only [Bool.not_eq_true] at hp
      simp [findSub, hp] at h
  | cons c rest ih =>
    intro i h
    by_cases hp : sep.isPrefixOf (c :: rest) = true
    · simp only [findSub, hp, if_pos] at h
      cases h
      simpa using hp
    · simp only [Bool.not_eq_true] at hp
      simp only [findSub, hp, Bool.false_eq_true, if_false, Option.map_eq_some'] at h
      rcases h with ⟨j, hj, rfl⟩
      simpa using ih j hj

theorem findSub_none (sep : List Char) :
    ∀ l : List Char, findSub sep l = none →
      ∀ i : Nat, sep.isPrefixOf (l.drop i) = false := by
  intro l
  induction l with
  | nil =>
    intro h i
    by_cases hp : sep.isPrefixOf ([] : List Char) = true
    · simp [findSub, hp] at h
    · simp only [Bool.not_eq_true] at hp
      simpa using hp
  | cons c rest ih =>
    intro h i
    by_cases hp : sep.isPrefixOf (c :: rest) = true
    · simp [findSub, hp] at h
    · simp only [Bool.not_eq_true] at hp
      simp only [findSub, hp, Bool.false_eq_true, if_false, Option.map_eq_none'] at h
      match i with
      | 0 => simpa using hp
      | i + 1 => simpa using ih h i

/-- Fuel-driven worker for `splitSeq`; the fuel is an upper bound on the
number of consumed characters, so the zero-fuel fallback is unreachable
when started with the list's length. -/
def splitGo (sep : List Char) : Nat → List Char → List Char → List (List Char)
  | _, [], acc => [acc.reverse]
  | 0, l, acc => [acc.reverse ++ l]
  | fuel + 1, c :: rest, acc =>
    if sep.isPrefixOf (c :: rest) then
      acc.reverse :: splitGo sep fuel (rest.drop (sep.length - 1)) []
    else
      splitGo sep fuel rest (c :: acc)

/-- JavaScript `str.split(sep)` over character lists: splits at every
occurrence of `sep` (left to right, non-overlapping); an empty separator
splits into single characters. -/
def splitSeq (sep l : List Char) : List (List Char) :=
  if sep.length = 0 then l.map (fun c => [c]) else splitGo sep l.length l []

/-- The span between the nearest delimiter before the cursor and the
cursor (source: `text.slice(0, selectionIndex).split(delimiter).pop()`). -/
def lastSpanOf (cfg : MentionConfig) (text : List Char) (selectionIndex : Nat) : List Char :=
  (splitSeq cfg.delimiter (text.take selectionIndex)).getLastD []

/-- Result record of `getSearchString` (the source returns the two boolean
thunks `isTriggered`/`isValidSearchString`; they are modelled as values). -/
structure SearchStringResult where
  searchString : List Char
  isTriggered : Bool
  isValidSearchString : Bool
deriving DecidableEq

/-- Source: `MentionManager.getSearchString`: takes the span after the last
delimiter before the cursor, cuts it at the first trigger occurrence, and
derives the search string and the two predicates
(`_invalidStartsKeywords = [trigger, delimiter]`). -/
def getSearchString (cfg : MentionConfig) (text : List Char) (selectionIndex : Nat) :
    SearchStringResult :=
  let lastSpan := lastSpanOf cfg text selectionIndex
  let mentionSpan :=
    match findSub cfg.trigger lastSpan with
    | none => lastSpan
    | some j => lastSpan.drop j
  let searchString := mentionSpan.drop cfg.trigger.length
  { searchString := searchString,
    isTriggered := cfg.trigger.isPrefixOf mentionSpan,
    isValidSearchString :=
      [cfg.trigger, cfg.delimiter].all (fun it => !it.isPrefixOf searchString) }

/-- Claim C5, counterexample: trigger `@`, delimiter space, text `x@a`,
cursor 3.  The span between the nearest delimiter and the cursor is `x@a`,
which does not start with the trigger, yet `isTriggered` is true — the
code triggers on any occurrence of the trigger inside the span, not only
on a span-initial one. -/
theorem getSearchString_triggered_mid_span :
    (getSearchString ⟨['@'], [' ']⟩ ['x', '@', 'a'] 3).isTriggered = true
    ∧ (['@'] : List Char).isPrefixOf (lastSpanOf ⟨['@'], [' ']⟩ ['x', '@', 'a'] 3) =
        false := by
  decide

/-- Claim C5, amended: `isTriggered` is true exactly when the trigger
occurs somewhere in the span between the nearest delimiter and the cursor
(not only when that span starts with the trigger); `isValidSearchString`
is false whenever the search string begins with the trigger or with the
delimiter. -/
theorem getSearchString_spec (cfg : MentionConfig) (text : List Char)
    (selectionIndex : Nat) :
    ((getSearchString cfg text selectionIndex).isTriggered = true ↔
      ∃ j : Nat,
        cfg.trigger.isPrefixOf ((lastSpanOf cfg text selectionIndex).drop j) = true)
    ∧ (cfg.trigger.isPrefixOf
          (getSearchString cfg text selectionIndex).searchString = true →
        (getSearchString cfg text selectionIndex).isValidSearchString = false)
    ∧ (cfg.delimiter.isPrefixOf
          (getSearchString cfg text selectionIndex).searchString = true →
        (getSearchString cfg text selectionIndex).isValidSearchString = false) := by
  refine ⟨?_, ?_, ?_⟩
  · constructor
    · intro ht
      cases hf : findSub cfg.trigger (lastSpanOf cfg text selectionIndex) with
      | none =>
        exact ⟨0, by simpa [getSearchString, hf] using ht⟩
      | some j =>
        exact ⟨j, findSub_some cfg.trigger _ j hf⟩
    · rintro ⟨j, hj⟩
      cases hf : findSub cfg.trigger (lastSpanOf cfg text selectionIndex) with
      | none =>
        have := findSub_none cfg.trigger (lastSpanOf cfg text selectionIndex) hf j
        rw [this] at hj
        cases hj
      | some i =>
        have := findSub_some cfg.trigger (lastSpanOf cfg text selectionIndex) i hf
        simpa [getSearchString, hf] using this
  · intro h
    simp only [getSearchString, List.all_cons, List.all_nil] at h ⊢
    rw [h]
    simp
  · intro h
    simp only [getSearchString, List.all_cons, List.all_nil] at h ⊢
    rw [h]
    simp

/-- Claim C5, amended, witness: text `@@a` with cursor 3 — triggered (via
occurrence at index 0) and invalid, since the search string `@a` starts
with the trigger. -/
theorem getSearchString_spec_witness :
    (getSearchString ⟨['@'], [' ']⟩ ['@', '@', 'a'] 3).isValidSearchString = false
    ∧ (getSearchString ⟨['@'], [' ']⟩ ['@', '@', 'a'] 3).isTriggered = true :=
  ⟨(getSearchString_spec ⟨['@'], [' ']⟩ ['@', '@', 'a'] 3).2.1 (by decide),
   ((getSearchString_spec ⟨['@'], [' ']⟩ ['@', '@', 'a'] 3).1).mpr ⟨0, by decide⟩⟩

/-- Source: `MentionManager.asMentionedMessageTemplate`: renders a user as
the template token trigger + brace + userId + brace, with an optional
trailing delimiter. -/
def asMentionedMessageTemplate (cfg : MentionConfig) (user : User)
    (delimiter : Bool) : List Char :=
  cfg.trigger ++ ['\x7b'] ++ user.userId ++ ['\x7d'] ++
    (if delimiter then cfg.delimiter else [])

/-- Accumulator of the right-to-left template serialization fold. -/
structure TemplateAcc where
  leftText : List Char
  strings : List (List Char)

/-- Source: `MentionManager.textToMentionedMessageTemplate`: sorts mentions
by descending range start (JavaScript's stable sort, modelled by a stable
insertion sort) and substitutes each mention's span, right to left, with
its template token. -/
def textToMentionedMessageTemplate (cfg : MentionConfig) (mentionEnabled : Bool)
    (text : List Char) (mentionedUsers : List MentionedUser) : List Char :=
  if !mentionEnabled then text
  else
    let sorted := List.insertionSort
      (fun a b => b.range.start ≤ a.range.start) mentionedUsers
    let r := sorted.foldl
      (fun (acc : TemplateAcc) curr =>
        { leftText := jsSliceTo acc.leftText curr.range.start,
          strings := asMentionedMessageTemplate cfg curr.user false ::
            jsSliceFrom acc.leftText curr.range.«end» :: acc.strings })
      { leftText := text, strings := [] }
    r.leftText ++ r.strings.flatten

/-- Result record of `templateToTextAndMentionedUsers`. -/
structure TemplateParseResult where
  mentionedText : List Char
  mentionedUsers : List MentionedUser
deriving DecidableEq

/-- Source: `MentionManager.templateToTextAndMentionedUsers`: the source
body ignores both arguments and returns an empty text and an empty mention
list. -/
def templateToTextAndMentionedUsers (template : List Char) (users : List User) :
    TemplateParseResult :=
  { mentionedText := [], mentionedUsers := [] }

/-- Claim C2: serializing text `@Alice` carrying the single mention
(user `u1`, range `[0,6]`) produces the template `@{u1}` as documented,
but parsing that template back returns no mentions at all: the parser's
body is an unimplemented stub, contradicting its own doc comment
("Convert @\x7buser.id\x7d template to @user.nickname text and
MentionedUser[] array"), so the round-trip law fails on every non-empty
mention set. -/
theorem template_roundTrip_loses_mentions :
    textToMentionedMessageTemplate ⟨['@'], [' ']⟩ true
        ['@', 'A', 'l', 'i', 'c', 'e']
        [⟨⟨['u', '1'], ['A', 'l', 'i', 'c', 'e']⟩, ⟨0, 6⟩⟩] =
      ['@', '\x7b', 'u', '1', '\x7d']
    ∧ (templateToTextAndMentionedUsers
        (textToMentionedMessageTemplate ⟨['@'], [' ']⟩ true
          ['@', 'A', 'l', 'i', 'c', 'e']
          [⟨⟨['u', '1'], ['A', 'l', 'i', 'c', 'e']⟩, ⟨0, 6⟩⟩])
        [⟨['u', '1'], ['A', 'l', 'i', 'c', 'e']⟩]).mentionedUsers = []
    ∧ ([⟨⟨['u', '1'], ['A', 'l', 'i', 'c', 'e']⟩, ⟨0, 6⟩⟩] : List MentionedUser) ≠ [] := by
  refine ⟨by decide, by decide, by decide⟩

/-- A message, restricted to the fields the modelled operations use:
identity, creation timestamp (for the default comparator), and sender. -/
structure Msg where
  id : Nat
  createdAt : Nat
  sender : Nat
deriving DecidableEq

/-- The remote message-collection resource, restricted to what the hook
reads synchronously: an identity and the two pagination flags. -/
structure Collection where
  cid : Nat
  hasPrevious : Bool
  hasNext : Bool
deriving DecidableEq

/-- State visible to `useGroupChannelMessagesWithCollection`:
`collection` is `collectionRef.current`, `messages`/`nextMessages` are the
reducer's two partitions, and `disposed` records (in order) the ids of
collections on which `dispose()` has been called. -/
structure HookState where
  collection : Option Collection
  disposed : List Nat
  messages : List Msg
  nextMessages : List Msg
deriving DecidableEq

/-- Modelled from the spec: the reducer module (`./reducer`) is not under
`src/`; per §4.3 an upsert replaces an existing entry with the same
identity in place and appends a new one. -/
def upsertOne (cur : List Msg) (m : Msg) : List Msg :=
  if cur.any (fun x => x.id == m.id) then
    cur.map (fun x => if x.id == m.id then m else x)
  else cur ++ [m]

/-- Modelled from the spec: §4.3's default comparator — creation timestamp
ascending with a stable sort. -/
def sortMessages (l : List Msg) : List Msg :=
  List.insertionSort (fun a b => a.createdAt ≤ b.createdAt) l

/-- Modelled from the spec: `updateMessages(messages, replace)` of the
reducer — replace wholesale or upsert each message by identity, then
re-sort with the comparator. -/
def updateMessages (cur : List Msg) (ms : List Msg) (replace : Bool) : List Msg :=
  sortMessages (if replace then ms else ms.foldl upsertOne cur)

/-- Modelled from the spec: `updateNextMessages(messages, replace)` of the
reducer — the same upsert/replace semantics applied to `nextMessages`. -/
def updateNextMessages (cur : List Msg) (ms : List Msg) (replace : Bool) : List Msg :=
  sortMessages (if replace then ms else ms.foldl upsertOne cur)

/-- Modelled from the spec: the derived view `newMessagesFromNext` —
`nextMessages` filtered to exclude the viewing user's own messages. -/
def newMessagesFromNext (viewer : Option Nat) (s : HookState) : List Msg :=
  s.nextMessages.filter (fun m => decide (some m.sender ≠ viewer))

/-- Source: `init(uid)` of the hook, synchronous store effects only: it
first disposes any existing collection unconditionally, and only in the
authenticated branch assigns a freshly created collection and replaces
`nextMessages` with the empty list (receipt calls and the asynchronous
snapshot callbacks have no synchronous store effect). -/
def init (uid : Option Nat) (newCollection : Collection) (s : HookState) : HookState :=
  let s1 :=
    match s.collection with
    | some c => { s with disposed := s.disposed ++ [c.cid] }
    | none => s
  match uid with
  | none => s1
  | some _ =>
    { s1 with
      collection := some newCollection,
      nextMessages := updateNextMessages s1.nextMessages [] true }

/-- Source: `prev` of the hook: when a collection exists and reports an
earlier page, fetch it (`fetch` is the outcome of `loadPrevious()`) and
upsert it into `messages`; a rejected fetch is swallowed by the empty
`catch`, leaving the state unchanged. -/
def prev (fetch : Except Unit (List Msg)) (s : HookState) : HookState :=
  match s.collection with
  | some c =>
    if c.hasPrevious then
      match fetch with
      | Except.ok l => { s with messages := updateMessages s.messages l false }
      | Except.error _ => s
    else s
  | none => s

/-- The page contributed by `loadNext()` inside `next`: empty unless a
collection exists and reports a next page, and empty when the fetch is
rejected (the empty `catch` swallows it). -/
def fetchedOf (fetch : Except Unit (List Msg)) (s : HookState) : List Msg :=
  match s.collection with
  | some c =>
    if c.hasNext then
      match fetch with
      | Except.ok l => l
      | Except.error _ => []
    else []
  | none => []

/-- Source: `next` of the hook: concatenates the fetched page with
`nextMessages`; when that list is non-empty it is upserted into `messages`
in one call and `nextMessages` is replaced with the empty list. -/
def next (fetch : Except Unit (List Msg)) (s : HookState) : HookState :=
  let list := fetchedOf fetch s ++ s.nextMessages
  if 0 < list.length then
    { s with
      messages := updateMessages s.messages list false,
      nextMessages := updateNextMessages s.nextMessages [] true }
  else s

theorem mem_ids_upsertOne (cur : List Msg) (m : Msg) (i : Nat)
    (h : i ∈ cur.map (fun x => x.id)) :
    i ∈ (upsertOne cur m).map (fun x => x.id) := by
  unfold upsertOne
  rcases List.mem_map.mp h with ⟨x, hx, rfl⟩
  by_cases hc : cur.any (fun x => x.id == m.id) = true
  · rw [if_pos hc, List.map_map]
    by_cases hid : x.id == m.id
    · have : x.id = m.id := by simpa using hid
      refine List.mem_map.mpr ⟨x, hx, ?_⟩
      simp [Function.comp, hid, this]
    · refine List.mem_map.mpr ⟨x, hx, ?_⟩
      simp [Function.comp, hid]
  · simp only [Bool.not_eq_true] at hc
    rw [if_neg (by simp [hc])]
    exact List.mem_map.mpr ⟨x, List.mem_append_left _ hx, rfl⟩

theorem self_mem_ids_upsertOne (cur : List Msg) (m : Msg) :
    m.id ∈ (upsertOne cur m).map (fun x => x.id) := by
  unfold upsertOne
  by_cases hc : cur.any (fun x => x.id == m.id) = true
  · rw [if_pos hc, List.map_map]
    rcases List.any_eq_true.mp hc with ⟨x, hx, hid⟩
    refine List.mem_map.mpr ⟨x, hx, ?_⟩
    simp [Function.comp, hid]
  · simp only [Bool.not_eq_true] at hc
    rw [if_neg (by simp [hc])]
    exact List.mem_map.mpr ⟨m, List.mem_append_right _ (List.mem_singleton_self m), rfl⟩

theorem mem_ids_foldl_upsert (ms : List Msg) :
    ∀ (cur : List Msg) (i : Nat), i ∈ cur.map (fun x => x.id) →
      i ∈ (ms.foldl upsertOne cur).map (fun x => x.id) := by
  induction ms with
  | nil => intro cur i h; simpa using h
  | cons hd tl ih =>
    intro cur i h
    exact ih (upsertOne cur hd) i (mem_ids_upsertOne cur hd i h)

theorem mem_ids_foldl_upsert_of_mem (ms : List Msg) :
    ∀ (cur : List Msg) (m : Msg), m ∈ ms →
      m.id ∈ (ms.foldl upsertOne cur).map (fun x => x.id) := by
  induction ms with
  | nil => intro cur m h; simp at h
  | cons hd tl ih =>
    intro cur m h
    rcases List.mem_cons.mp h with rfl | h
    · exact mem_ids_foldl_upsert tl (upsertOne cur m) m.id (self_mem_ids_upsertOne cur m)
    · exact ih (upsertOne cur hd) m h

theorem mem_ids_sortMessages (l : List Msg) (i : Nat) :
    i ∈ (sortMessages l).map (fun x => x.id) ↔ i ∈ l.map (fun x => x.id) :=
  ((List.perm_insertionSort (fun a b => a.createdAt ≤ b.createdAt) l).map
    (fun x => x.id)).mem_iff

theorem mem_ids_updateMessages (cur ms : List Msg) (m : Msg) (h : m ∈ ms) :
    m.id ∈ (updateMessages cur ms false).map (fun x => x.id) := by
  unfold updateMessages
  rw [mem_ids_sortMessages]
  simpa using mem_ids_foldl_upsert_of_mem ms cur m h

/-- Claim C3, counterexample: an unauthenticated `init` call on a state
holding a live collection (id 7).  The claim says the existing resource is
not disposed, but the code calls `dispose()` before the authentication
check, so the disposal record changes from `[]` to `[7]`. -/
theorem init_unauthenticated_disposes :
    ({ collection := some ⟨7, true, true⟩, disposed := [], messages := [],
       nextMessages := [] } : HookState).disposed = []
    ∧ (init none ⟨1, false, false⟩
        { collection := some ⟨7, true, true⟩, disposed := [], messages := [],
          nextMessages := [] }).disposed = [7] := by
  refine ⟨rfl, by decide⟩

/-- Claim C3, amended: when `init` runs with an absent viewer id, no new
collection is created and the message store (`messages` and
`nextMessages`) is left unchanged — but any existing collection IS
disposed, because the `dispose()` call precedes the authentication check;
only the disposal record changes. -/
theorem init_unauthenticated_frame (newCollection : Collection) (s : HookState) :
    (init none newCollection s).collection = s.collection
    ∧ (init none newCollection s).messages = s.messages
    ∧ (init none newCollection s).nextMessages = s.nextMessages
    ∧ (init none newCollection s).disposed =
        s.disposed ++
          (match s.collection with
           | some c => [c.cid]
           | none => []) := by
  cases hc : s.collection <;> simp [init, hc]

/-- Claim C4: whenever the fetched page plus `nextMessages` is non-empty,
`next` merges all of `nextMessages` together with the fetched page into
`messages` in one combined update, then clears `nextMessages`; every
pending message's identity lands in `messages`, and the new-messages
indicator derived from `nextMessages` is empty afterwards. -/
theorem next_drains_pending (fetch : Except Unit (List Msg)) (s : HookState)
    (viewer : Option Nat) (h : fetchedOf fetch s ++ s.nextMessages ≠ []) :
    (next fetch s).messages =
      updateMessages s.messages (fetchedOf fetch s ++ s.nextMessages) false
    ∧ (next fetch s).nextMessages = []
    ∧ newMessagesFromNext viewer (next fetch s) = []
    ∧ ∀ m ∈ s.nextMessages,
        m.id ∈ (next fetch s).messages.map (fun x => x.id) := by
  have hlen : 0 < (fetchedOf fetch s ++ s.nextMessages).length :=
    List.length_pos.mpr h
  have hnext : next fetch s =
      { s with
        messages := updateMessages s.messages (fetchedOf fetch s ++ s.nextMessages) false,
        nextMessages := updateNextMessages s.nextMessages [] true } := by
    simp only [next]
    rw [if_pos hlen]
  have hempty : updateNextMessages s.nextMessages [] true = [] := by
    simp [updateNextMessages, sortMessages]
  refine ⟨by rw [hnext], by rw [hnext]; exact hempty, ?_, ?_⟩
  · rw [newMessagesFromNext, hnext]
    simp [hempty]
  · intro m hm
    rw [hnext]
    exact mem_ids_updateMessages s.messages (fetchedOf fetch s ++ s.nextMessages) m
      (List.mem_append_right _ hm)

/-- Claim C4, witness: no collection (so no fetched page) and one pending
realtime message, which `next` merges into `messages` and clears. -/
theorem next_drains_pending_witness :
    (next (Except.ok [])
        { collection := none, disposed := [], messages := [⟨1, 10, 5⟩],
          nextMessages := [⟨2, 20, 6⟩] }).messages =
      updateMessages [⟨1, 10, 5⟩]
        (fetchedOf (Except.ok [])
            { collection := none, disposed := [], messages := [⟨1, 10, 5⟩],
              nextMessages := [⟨2, 20, 6⟩] } ++ [⟨2, 20, 6⟩]) false
    ∧ (next (Except.ok [])
        { collection := none, disposed := [], messages := [⟨1, 10, 5⟩],
          nextMessages := [⟨2, 20, 6⟩] }).nextMessages = []
    ∧ newMessagesFromNext (some 5)
        (next (Except.ok [])
          { collection := none, disposed := [], messages := [⟨1, 10, 5⟩],
            nextMessages := [⟨2, 20, 6⟩] }) = []
    ∧ ∀ m ∈ ([⟨2, 20, 6⟩] : List Msg),
        m.id ∈ (next (Except.ok [])
          { collection := none, disposed := [], messages := [⟨1, 10, 5⟩],
            nextMessages := [⟨2, 20, 6⟩] }).messages.map (fun x => x.id) :=
  next_drains_pending (Except.ok [])
    { collection := none, disposed := [], messages := [⟨1, 10, 5⟩],
      nextMessages := [⟨2, 20, 6⟩] } (some 5) (by decide)

/-- Claim C7: `prev` never surfaces an error (it is a total state
transition whose failure branch is the identity): it is a no-op when no
collection exists or the collection reports no earlier page, and a
rejected page fetch leaves the state — in particular `messages` —
unchanged, exactly like the no-more-pages case. -/
theorem prev_swallows_failure (fetch : Except Unit (List Msg)) (s : HookState) :
    (s.collection = none → prev fetch s = s)
    ∧ (∀ c, s.collection = some c → c.hasPrevious = false → prev fetch s = s)
    ∧ prev (Except.error ()) s = s := by
  refine ⟨fun h => by simp [prev, h], fun c hc hp => by simp [prev, hc, hp], ?_⟩
  unfold prev
  cases hc : s.collection with
  | none => rfl
  | some c =>
    by_cases hp : c.hasPrevious = true
    · simp [hp]
    · simp only [Bool.not_eq_true] at hp
      simp [hp]

/-- Claim C7, witness: a failing fetch on a state that has a collection
with an earlier page available leaves the state unchanged. -/
theorem prev_swallows_failure_witness :
    prev (Except.error ())
        { collection := some ⟨3, true, true⟩, disposed := [],
          messages := [⟨1, 10, 5⟩], nextMessages := [] } =
      { collection := some ⟨3, true, true⟩, disposed := [],
        messages := [⟨1, 10, 5⟩], nextMessages := [] } :=
  (prev_swallows_failure (Except.error ())
    { collection := some ⟨3, true, true⟩, disposed := [],
      messages := [⟨1, 10, 5⟩], nextMessages := [] }).2.2

end SendbirdUIKit
